import Mathlib

/-!
# Verification of salticidae's lock-free queues (`include/salticidae/queue.h`)

This development gives a shallow embedding of the `FreeList`, `MPMCQueue`
and `MPSCQueue` classes of `queue.h` and proves functional properties of
their quiescent (interference-free, single-threaded) executions.

Modelling choices, all taken from the source:

* Nodes live in an explicit heap `Nat → Node α`; a `QState` carries the
  heap, the free-list `top`, the queue `head` and `tail`, and a `fresh`
  counter standing in for the allocator (`new Block()` returns id `fresh`).
* `Node` carries the four fields of a `MPMCQueue<T>::Block`:
  - `next : Option Nat` is `FreeList::Node::next` (the free-list link);
  - `refcnt : Nat` is `FreeList::Node::refcnt`;
  - `bnext : Option Nat` is `Block`'s own `std::atomic<Block *> next`,
    which *shadows* the inherited `FreeList::Node::next` in C++ — the two
    are distinct fields, hence the two distinct fields here;
  - `elem : α` is `Block::elem` (`T elem;`), default-constructed junk
    until an enqueue placement-constructs a value into it.
* Each operation is the sequential execution of the corresponding C++
  member function: in the absence of interference every
  `compare_exchange_weak` whose expected value was just read succeeds,
  so the retry loops run exactly one iteration.  The two spin branches
  (`if (!t) continue;`) wait for another thread and can never make
  progress in a quiescent state; the model returns failure there and the
  invariant proves the branch unreachable.
* `refcnt` is a `size_t`; under the invariant it is only ever decremented
  from a positive value, so `Nat` subtraction coincides with the machine
  subtraction everywhere reachable.
-/

set_option linter.unusedSectionVars false

namespace Salticidae

/-- The fields of a `MPMCQueue<T>::Block` (which `is-a FreeList::Node`).
`next` is `FreeList::Node::next`; `bnext` is the *shadowing* member
`std::atomic<Block *> MPMCQueue::Block::next` declared at queue.h:90. -/
structure Node (α : Type) where
  /-- `FreeList::Node::next` — the free-list link. -/
  next : Option Nat
  /-- `FreeList::Node::refcnt`. -/
  refcnt : Nat
  /-- `MPMCQueue::Block::next` — the queue link (shadows `Node::next`). -/
  bnext : Option Nat
  /-- `MPMCQueue::Block::elem`. -/
  elem : α
  deriving Repr, DecidableEq

/-- Whole-system state: the heap of allocated blocks, the `FreeList::top`
of the queue's pool `blks`, the queue's `head` and `tail`, and the next
address the allocator will hand out. -/
structure QState (α : Type) where
  heap : Nat → Node α
  top : Option Nat
  head : Nat
  tail : Nat
  fresh : Nat

variable {α : Type} [Inhabited α]

/-- Heap update at one address. -/
def hset (h : Nat → Node α) (i : Nat) (d : Node α) : Nat → Node α :=
  fun j => if j = i then d else h j

/-- A freshly constructed `Block`: `Node()` sets `next = nullptr`,
`refcnt = 1`; `Block::next` and `elem` are default-initialized. -/
def newBlock : Node α := ⟨none, 1, none, default⟩

/-- Junk at unallocated addresses (never read under the invariant). -/
def unalloc : Node α := ⟨none, 0, none, default⟩

/-- `new Block()`: returns the fresh address and the extended heap. -/
def allocBlock (σ : QState α) : Nat × QState α :=
  (σ.fresh, { σ with heap := hset σ.heap σ.fresh newBlock, fresh := σ.fresh + 1 })

/-- `FreeList::release_ref(u)`, run sequentially (queue.h:28–43).
`fetch_sub` returns the prior value; if it was not 1 the function just
decremented.  Otherwise the push loop runs: it reads `top`, repairs
`u->next`, CASes `top` (which succeeds, there being no interference) and
stores `refcnt = 1`. -/
def release_ref (σ : QState α) (u : Nat) : QState α :=
  let prior := (σ.heap u).refcnt
  let σ₁ := { σ with heap := hset σ.heap u { σ.heap u with refcnt := (σ.heap u).refcnt - 1 } }
  if prior ≠ 1 then σ₁
  else
    let t := σ₁.top
    let σ₂ := { σ₁ with heap := hset σ₁.heap u { σ₁.heap u with next := t } }
    let σ₃ := { σ₂ with top := some u }
    { σ₃ with heap := hset σ₃.heap u { σ₃.heap u with refcnt := 1 } }

/-- `FreeList::push(u)` (queue.h:45–48) just calls `release_ref` and
returns `true`. -/
def push (σ : QState α) (u : Nat) : QState α :=
  release_ref σ u

/-- `FreeList::pop(r)`, run sequentially (queue.h:50–82).  With no
interference: an empty list returns `false`; otherwise the refcnt of the
top node is read (`t = 0` would spin forever waiting on another thread —
modelled as failure, unreachable under the invariant), both CASes
succeed, and the trailing `release_ref` drops the extra reference. -/
def pop (σ : QState α) : Option Nat × QState α :=
  match σ.top with
  | none => (none, σ)
  | some u =>
    let t := (σ.heap u).refcnt
    if t = 0 then (none, σ)
    else
      let σ₁ := { σ with heap := hset σ.heap u { σ.heap u with refcnt := t + 1 } }
      let nv := (σ₁.heap u).next
      let σ₂ := { σ₁ with top := nv }
      (some u, release_ref σ₂ u)

/-- `MPMCQueue::_enqueue(nblk, e)` (queue.h:98–104): placement-construct
`e` into `nblk->elem`, store `nullptr` into `nblk->next` (the Block
link), exchange `tail`, and link `prev->next = nblk`. -/
def _enqueue (σ : QState α) (nblk : Nat) (e : α) : QState α :=
  let σ₁ := { σ with heap := hset σ.heap nblk { σ.heap nblk with elem := e } }
  let σ₂ := { σ₁ with heap := hset σ₁.heap nblk { σ₁.heap nblk with bnext := none } }
  let prev := σ₂.tail
  let σ₃ := { σ₂ with tail := nblk }
  { σ₃ with heap := hset σ₃.heap prev { σ₃.heap prev with bnext := some nblk } }

/-- `MPMCQueue::enqueue(e)` (queue.h:125–131): pop a node from the pool,
allocating a fresh `Block` on miss; always returns `true`. -/
def enqueue (σ : QState α) (e : α) : Bool × QState α :=
  match pop σ with
  | (some n, σ₁) => (true, _enqueue σ₁ n e)
  | (none, σ₁) =>
    let (n, σ₂) := allocBlock σ₁
    (true, _enqueue σ₂ n e)

/-- `MPMCQueue::try_enqueue(e)` (queue.h:133–139): like `enqueue` but
returns `false` instead of allocating on pool miss. -/
def try_enqueue (σ : QState α) (e : α) : Bool × QState α :=
  match pop σ with
  | (some n, σ₁) => (true, _enqueue σ₁ n e)
  | (none, σ₁) => (false, σ₁)

/-- `MPMCQueue::try_dequeue(e)` (queue.h:141–166), run sequentially.
The head's refcnt is bumped (a zero refcnt would spin — unreachable in a
quiescent state); a null `next` means empty, and the extra reference is
released before returning `false`.  Otherwise the payload of the
successor is moved out, the head CAS succeeds, the old head's reference
is released and the old head is pushed back to the pool. -/
def try_dequeue (σ : QState α) : Option α × QState α :=
  let h := σ.head
  let t := (σ.heap h).refcnt
  if t = 0 then (none, σ)
  else
    let σ₁ := { σ with heap := hset σ.heap h { σ.heap h with refcnt := t + 1 } }
    match (σ₁.heap h).bnext with
    | none => (none, release_ref σ₁ h)
    | some nh =>
      let e := (σ₁.heap nh).elem
      let σ₂ := { σ₁ with head := nh }
      let σ₃ := release_ref σ₂ h
      (some e, push σ₃ h)

/-- `MPSCQueue::try_dequeue(e)` (queue.h:174–182): single-consumer, no
refcount dance; a null `head->next` means empty, otherwise move the
successor's payload out, advance `head`, push the old head. -/
def mpsc_try_dequeue (σ : QState α) : Option α × QState α :=
  let h := σ.head
  match (σ.heap h).bnext with
  | none => (none, σ)
  | some nh =>
    let e := (σ.heap nh).elem
    let σ₁ := { σ with head := nh }
    (some e, push σ₁ h)

/-- `MPSCQueue::rewind(e)` (queue.h:184–195): obtain a node from the
pool (allocating on miss), placement-construct `e` into the current
head's `elem`, link the new node's Block `next` to the old head, and
store the new node to `head`.  Always returns `true`. -/
def rewind (σ : QState α) (e : α) : QState α :=
  let (n?, σ₀) := pop σ
  let (nblk, σ₁) :=
    match n? with
    | some n => (n, σ₀)
    | none => allocBlock σ₀
  let h := σ₁.head
  let σ₂ := { σ₁ with heap := hset σ₁.heap h { σ₁.heap h with elem := e } }
  let σ₃ := { σ₂ with heap := hset σ₂.heap nblk { σ₂.heap nblk with bnext := some h } }
  { σ₃ with head := nblk }

/-- One round of the constructor's pool pre-population:
`blks.push(new Block())` (queue.h:112–113). -/
def pushNew (σ : QState α) : QState α :=
  let (n, σ₁) := allocBlock σ
  push σ₁ n

/-- Pre-populate the pool with `cap` nodes. -/
def pushPool (σ : QState α) : Nat → QState α
  | 0 => σ
  | cap + 1 => pushPool (pushNew σ) cap

/-- `MPMCQueue(capacity)` (queue.h:110–114): a single dummy block at
address 0 with `head == tail` and `head->next == nullptr`, then
`capacity` blocks pushed into the pool. -/
def mkQ (capacity : Nat) : QState α :=
  let σ₀ : QState α :=
    { heap := hset (fun _ => unalloc) 0 newBlock
      top := none, head := 0, tail := 0, fresh := 1 }
  pushPool σ₀ capacity

/-- The queue chain: following the Block links (`bnext`) from `a`
through exactly the addresses in `l` ends at `b`. -/
def isChain (hp : Nat → Node α) : Nat → List Nat → Nat → Bool
  | a, [], b => a = b
  | a, x :: l, _b => ((hp a).bnext = some x) && isChain hp x l _b

/-- The free-list chain: `o` is the `top` pointer and `l` lists the pool
in LIFO order, following the `FreeList::Node::next` links down to
`nullptr`. -/
def isFChain (hp : Nat → Node α) : Option Nat → List Nat → Bool
  | o, [] => o = none
  | o, x :: l => (o = some x) && isFChain hp (hp x).next l

/-- The quiescent-state invariant, indexed by `qc` (the queue chain
after the dummy head, ending at `tail`) and `fc` (the pool in LIFO
order): the chains are well-formed and null-terminated, all their nodes
are distinct and allocated, and every node at rest holds one reference. -/
def InvW (σ : QState α) (qc fc : List Nat) : Prop :=
  isChain σ.heap σ.head qc σ.tail = true ∧
  (σ.heap σ.tail).bnext = none ∧
  isFChain σ.heap σ.top fc = true ∧
  (σ.head :: qc ++ fc).Nodup ∧
  (∀ i ∈ σ.head :: qc ++ fc, i < σ.fresh) ∧
  (∀ i ∈ σ.head :: qc ++ fc, (σ.heap i).refcnt = 1)

instance decInvW (σ : QState α) (qc fc : List Nat) : Decidable (InvW σ qc fc) := by
  unfold InvW; infer_instance

/-- Abstraction: the values currently in the queue, front first (the
payloads along the chain strictly after the dummy head). -/
def absQ (σ : QState α) (qc : List Nat) : List α :=
  qc.map fun i => (σ.heap i).elem

/-- Enqueue a whole list, left to right. -/
def enqList (σ : QState α) (xs : List α) : QState α :=
  xs.foldl (fun s x => (enqueue s x).2) σ

/-- Perform `n` MPMC `try_dequeue` calls, collecting the results. -/
def deqList (σ : QState α) : Nat → List (Option α) × QState α
  | 0 => ([], σ)
  | n + 1 =>
    let (r, σ₁) := try_dequeue σ
    let (rs, σ₂) := deqList σ₁ n
    (r :: rs, σ₂)

/-- Perform `n` MPSC `try_dequeue` calls, collecting the results. -/
def mpscDeqList (σ : QState α) : Nat → List (Option α) × QState α
  | 0 => ([], σ)
  | n + 1 =>
    let (r, σ₁) := mpsc_try_dequeue σ
    let (rs, σ₂) := mpscDeqList σ₁ n
    (r :: rs, σ₂)

/-- One attempt of the refcount-acquire CAS shared by `FreeList::pop`
(queue.h:57–62) and `MPMCQueue::try_dequeue` (queue.h:145–147), taken
against an *arbitrary* current state `σ` (other threads may have run
since `t` was loaded from `u->refcnt`): the `if (!t) continue;` guard
rejects `t = 0`, and the CAS succeeds only if the refcnt still equals
`t`, in which case it becomes `t + 1`. -/
def refcnt_acquire (σ : QState α) (u : Nat) (t : Nat) : Bool × QState α :=
  if t = 0 then (false, σ)
  else if (σ.heap u).refcnt = t then
    (true, { σ with heap := hset σ.heap u { σ.heap u with refcnt := t + 1 } })
  else (false, σ)

/-- The common net effect of a successful MPMC or MPSC dequeue on a
quiescent state: the head advances to its successor `n`, and the old
head is pushed onto the free list (its `next` repaired to the old top,
its refcnt reset to 1). -/
def deqNet (σ : QState α) (n : Nat) : QState α :=
  { σ with head := n, top := some σ.head,
           heap := hset σ.heap σ.head { σ.heap σ.head with next := σ.top, refcnt := 1 } }

/-- The net effect of `rewind` once the new block `n` is in hand: the
rewound value is placement-constructed into the old head's payload, the
new block's queue link points at the old head, and the head moves to
the new block. -/
def rewNet (σ : QState α) (n : Nat) (e : α) : QState α :=
  { σ with head := n,
           heap := hset (hset σ.heap σ.head { σ.heap σ.head with elem := e })
                        n { σ.heap n with bnext := some σ.head } }

/-! ## Heap and chain lemmas -/

theorem hset_eq (h : Nat → Node α) (i : Nat) (d : Node α) : hset h i d i = d := by
  simp [hset]

theorem hset_ne (h : Nat → Node α) {i j : Nat} (d : Node α) (hij : j ≠ i) :
    hset h i d j = h j := by
  simp [hset, hij]

theorem hset_hset (h : Nat → Node α) (i : Nat) (d d' : Node α) :
    hset (hset h i d) i d' = hset h i d' := by
  funext j; by_cases hj : j = i <;> simp [hset, hj]

theorem hset_self (h : Nat → Node α) (i : Nat) : hset h i (h i) = h := by
  funext j; by_cases hj : j = i <;> simp [hset, hj]

theorem isChain_congr {hp hp' : Nat → Node α}
    (hb : ∀ x, (hp' x).bnext = (hp x).bnext) :
    ∀ a l b, isChain hp' a l b = isChain hp a l b := by
  intro a l b
  induction l generalizing a with
  | nil => rfl
  | cons x l ih => simp [isChain, hb, ih]

theorem isChain_update_notmem {hp : Nat → Node α} {j : Nat} {d : Node α} :
    ∀ a l b, j ∉ a :: l → isChain (hset hp j d) a l b = isChain hp a l b := by
  intro a l b hj
  induction l generalizing a with
  | nil => rfl
  | cons x l ih =>
    have haj : a ≠ j := fun h => hj (h ▸ List.mem_cons_self a _)
    have hj' : j ∉ x :: l := fun h => hj (List.mem_cons_of_mem a h)
    simp [isChain, hset_ne hp d haj, ih x hj']

theorem isChain_mem_last {hp : Nat → Node α} :
    ∀ a l b, isChain hp a l b = true → b ∈ a :: l := by
  intro a l b h
  induction l generalizing a with
  | nil =>
    have : a = b := by simpa [isChain] using h
    simp [this]
  | cons x l ih =>
    have h' : isChain hp x l b = true := by
      simp [isChain] at h; exact h.2
    exact List.mem_cons_of_mem a (ih x h')

theorem isChain_snoc {hp : Nat → Node α} {n : Nat} :
    ∀ a l b, isChain hp a l b = true → (hp b).bnext = some n →
      isChain hp a (l ++ [n]) n = true := by
  intro a l b hc hb
  induction l generalizing a with
  | nil =>
    have : a = b := by simpa [isChain] using hc
    subst this
    simp [isChain, hb]
  | cons x l ih =>
    simp [isChain] at hc ⊢
    exact ⟨hc.1, ih x hc.2⟩

theorem isChain_update_last {hp : Nat → Node α} {d : Node α} :
    ∀ a l b, (a :: l).Nodup → isChain hp a l b = true →
      isChain (hset hp b d) a l b = true := by
  intro a l b hnd hc
  induction l generalizing a with
  | nil => simpa [isChain] using hc
  | cons x l ih =>
    simp [isChain] at hc ⊢
    have hbmem : b ∈ x :: l := isChain_mem_last x l b hc.2
    have hab : a ≠ b := by
      intro h; subst h
      exact (List.nodup_cons.mp hnd).1 hbmem
    refine ⟨by rw [hset_ne hp d hab]; exact hc.1, ?_⟩
    exact ih x (List.nodup_cons.mp hnd).2 hc.2

theorem isFChain_congr {hp hp' : Nat → Node α}
    (hn : ∀ x, (hp' x).next = (hp x).next) :
    ∀ o l, isFChain hp' o l = isFChain hp o l := by
  intro o l
  induction l generalizing o with
  | nil => rfl
  | cons x l ih => simp [isFChain, hn, ih]

theorem isFChain_update_notmem {hp : Nat → Node α} {j : Nat} {d : Node α} :
    ∀ o l, j ∉ l → isFChain (hset hp j d) o l = isFChain hp o l := by
  intro o l hj
  induction l generalizing o with
  | nil => rfl
  | cons x l ih =>
    have hxj : x ≠ j := fun h => hj (h ▸ List.mem_cons_self x _)
    have hj' : j ∉ l := fun h => hj (List.mem_cons_of_mem x h)
    simp [isFChain, hset_ne hp d hxj, ih ((hp x).next) hj']

/-! ## Invariant accessors and consequences -/

theorem InvW.chain {σ : QState α} {qc fc : List Nat} (h : InvW σ qc fc) :
    isChain σ.heap σ.head qc σ.tail = true := h.1

theorem InvW.tail_bnext {σ : QState α} {qc fc : List Nat} (h : InvW σ qc fc) :
    (σ.heap σ.tail).bnext = none := h.2.1

theorem InvW.fchain {σ : QState α} {qc fc : List Nat} (h : InvW σ qc fc) :
    isFChain σ.heap σ.top fc = true := h.2.2.1

theorem InvW.nodup {σ : QState α} {qc fc : List Nat} (h : InvW σ qc fc) :
    (σ.head :: qc ++ fc).Nodup := h.2.2.2.1

theorem InvW.lt_fresh {σ : QState α} {qc fc : List Nat} (h : InvW σ qc fc) :
    ∀ i ∈ σ.head :: qc ++ fc, i < σ.fresh := h.2.2.2.2.1

theorem InvW.rc {σ : QState α} {qc fc : List Nat} (h : InvW σ qc fc) :
    ∀ i ∈ σ.head :: qc ++ fc, (σ.heap i).refcnt = 1 := h.2.2.2.2.2

theorem InvW.tail_mem {σ : QState α} {qc fc : List Nat} (h : InvW σ qc fc) :
    σ.tail ∈ σ.head :: qc :=
  isChain_mem_last σ.head qc σ.tail h.chain

theorem InvW.nodup_hq {σ : QState α} {qc fc : List Nat} (h : InvW σ qc fc) :
    (σ.head :: qc).Nodup := by
  have : List.Sublist (σ.head :: qc) (σ.head :: qc ++ fc) := by
    rw [List.cons_append]
    exact ((List.sublist_append_left qc fc).cons₂ σ.head)
  exact h.nodup.sublist this

theorem InvW.disj {σ : QState α} {qc fc : List Nat} (h : InvW σ qc fc) :
    ∀ i ∈ σ.head :: qc, i ∉ fc := by
  have hd : List.Disjoint (σ.head :: qc) fc := by
    have := h.nodup
    rw [List.cons_append] at this
    exact List.disjoint_of_nodup_append this
  exact fun i hi => hd hi

theorem InvW.fresh_notmem {σ : QState α} {qc fc : List Nat} (h : InvW σ qc fc) :
    σ.fresh ∉ σ.head :: qc ++ fc := by
  intro hmem
  exact absurd (h.lt_fresh σ.fresh hmem) (lt_irrefl _)

theorem InvW.rc_head {σ : QState α} {qc fc : List Nat} (h : InvW σ qc fc) :
    (σ.heap σ.head).refcnt = 1 :=
  h.rc σ.head (List.mem_cons_self _ _)

/-! ## Net effect of `release_ref` and `pop` -/

/-- `release_ref` on a node whose refcnt is not 1 only decrements. -/
theorem release_ref_ne_one {σ : QState α} {u : Nat}
    (h : (σ.heap u).refcnt ≠ 1) :
    release_ref σ u =
      { σ with heap := hset σ.heap u { σ.heap u with refcnt := (σ.heap u).refcnt - 1 } } := by
  simp [release_ref, h]

/-- `release_ref` on a node whose refcnt is 1 pushes it: the node's
free-list link gets the old top, the node becomes the new top, and its
refcnt is reset to 1. -/
theorem release_ref_one {σ : QState α} {u : Nat}
    (h : (σ.heap u).refcnt = 1) :
    release_ref σ u =
      { σ with top := some u,
               heap := hset σ.heap u { σ.heap u with next := σ.top, refcnt := 1 } } := by
  simp [release_ref, h, hset_eq, hset_hset]

/-- A record update writing a field's current value is the identity. -/
theorem node_update_rc_self (d : Node α) : { d with refcnt := d.refcnt } = d := rfl

theorem pop_none_eq {σ : QState α} (h : σ.top = none) : pop σ = (none, σ) := by
  simp [pop, h]

/-- On a quiescent free list whose top node holds one reference, `pop`
detaches the top node and leaves the heap unchanged (the refcnt bump is
undone by the trailing `release_ref`). -/
theorem pop_some_eq {σ : QState α} {n : Nat} (htop : σ.top = some n)
    (hrc : (σ.heap n).refcnt = 1) :
    pop σ = (some n, { σ with top := (σ.heap n).next }) := by
  have key : { σ.heap n with refcnt := 1 } = σ.heap n := by
    rw [← hrc]
  simp [pop, htop, hrc, release_ref, hset_eq, hset_hset, key, hset_self]

/-! ## Enqueue preservation -/

/-- Net effect of `_enqueue` when the new block is not the tail. -/
theorem _enqueue_eq {σ : QState α} {n : Nat} (e : α) (hne : n ≠ σ.tail) :
    _enqueue σ n e =
      { σ with tail := n,
               heap := hset (hset σ.heap n { σ.heap n with elem := e, bnext := none })
                            σ.tail { σ.heap σ.tail with bnext := some n } } := by
  have h1 : ∀ d : Node α, hset σ.heap n d σ.tail = σ.heap σ.tail :=
    fun d => hset_ne σ.heap d (Ne.symm hne)
  simp [_enqueue, hset_eq, hset_hset, h1]

/-- `_enqueue` of a node that is fresh to both chains appends the node
to the queue chain and the value to the abstraction; the pool is
untouched. -/
theorem InvW_enqueue_core {σ : QState α} {qc fc : List Nat} {n : Nat}
    (h : InvW σ qc fc) (hn_mem : n ∉ σ.head :: qc ++ fc) (hn_lt : n < σ.fresh)
    (hn_rc : (σ.heap n).refcnt = 1) (e : α) :
    InvW (_enqueue σ n e) (qc ++ [n]) fc ∧
    absQ (_enqueue σ n e) (qc ++ [n]) = absQ σ qc ++ [e] := by
  have hn_hq : n ∉ σ.head :: qc := fun hmem => hn_mem (by
    rcases List.mem_cons.mp hmem with h' | h'
    · exact List.mem_cons.mpr (Or.inl h')
    · exact List.mem_cons.mpr (Or.inr (List.mem_append.mpr (Or.inl h'))))
  have hn_fc : n ∉ fc := fun hmem =>
    hn_mem (List.mem_cons.mpr (Or.inr (List.mem_append.mpr (Or.inr hmem))))
  have htail_ne : n ≠ σ.tail := by
    intro h'; exact hn_hq (h' ▸ h.tail_mem)
  have htail_fc : σ.tail ∉ fc := h.disj σ.tail h.tail_mem
  set dn : Node α := { σ.heap n with elem := e, bnext := none } with hdn
  set dt : Node α := { σ.heap σ.tail with bnext := some n } with hdt
  have heq := _enqueue_eq (σ := σ) (n := n) e htail_ne
  set τ := _enqueue σ n e with hτ
  have hheap : τ.heap = hset (hset σ.heap n dn) σ.tail dt := by rw [heq]
  have hhead : τ.head = σ.head := by rw [heq]
  have htail : τ.tail = n := by rw [heq]
  have htop : τ.top = σ.top := by rw [heq]
  have hfresh : τ.fresh = σ.fresh := by rw [heq]
  -- queue chain: old chain survives both updates, then extends by n
  have hc1 : isChain (hset σ.heap n dn) σ.head qc σ.tail = true := by
    rw [isChain_update_notmem σ.head qc σ.tail hn_hq]
    exact h.chain
  have hc2 : isChain (hset (hset σ.heap n dn) σ.tail dt) σ.head qc σ.tail = true :=
    isChain_update_last σ.head qc σ.tail h.nodup_hq hc1
  have hlast : ((hset (hset σ.heap n dn) σ.tail dt) σ.tail).bnext = some n := by
    rw [hset_eq]
  have hc3 : isChain (hset (hset σ.heap n dn) σ.tail dt) σ.head (qc ++ [n]) n = true :=
    isChain_snoc σ.head qc σ.tail hc2 hlast
  -- refcnt fields are untouched everywhere
  have hrc_all : ∀ i, ((hset (hset σ.heap n dn) σ.tail dt) i).refcnt = (σ.heap i).refcnt := by
    intro i
    by_cases hit : i = σ.tail
    · subst hit; rw [hset_eq, hdt]
    · rw [hset_ne _ dt hit]
      by_cases hin : i = n
      · subst hin; rw [hset_eq, hdn]
      · rw [hset_ne _ dn hin]
  -- the permutation relating the new name list to the old one
  have hplist : σ.head :: (qc ++ [n]) ++ fc = σ.head :: (qc ++ n :: fc) := by simp
  have hperm : (σ.head :: (qc ++ [n]) ++ fc).Perm (n :: (σ.head :: qc ++ fc)) := by
    rw [hplist, List.cons_append]
    have hs1 : (qc ++ n :: fc).Perm (n :: (qc ++ fc)) := List.perm_middle
    exact (hs1.cons σ.head).trans (List.Perm.swap n σ.head _)
  refine ⟨⟨?_, ?_, ?_, ?_, ?_, ?_⟩, ?_⟩
  · rw [hheap, hhead, htail]; exact hc3
  · rw [hheap, htail, hset_ne _ dt htail_ne, hset_eq, hdn]
  · rw [hheap, htop]
    have hpres : ∀ x, ((hset (hset σ.heap n dn) σ.tail dt) x).next = (σ.heap x).next := by
      intro x
      by_cases hxt : x = σ.tail
      · subst hxt; rw [hset_eq]
      · rw [hset_ne _ dt hxt]
        by_cases hxn : x = n
        · subst hxn; rw [hset_eq]
        · rw [hset_ne _ dn hxn]
    rw [isFChain_congr hpres σ.top fc]
    exact h.fchain
  · rw [hhead]
    refine hperm.nodup_iff.mpr ?_
    exact List.nodup_cons.mpr ⟨hn_mem, h.nodup⟩
  · rw [hhead, hfresh]
    intro i hi
    have : i ∈ n :: (σ.head :: qc ++ fc) := hperm.mem_iff.mp hi
    rcases List.mem_cons.mp this with h' | h'
    · subst h'; exact hn_lt
    · exact h.lt_fresh i h'
  · rw [hhead, hheap]
    intro i hi
    rw [hrc_all i]
    have : i ∈ n :: (σ.head :: qc ++ fc) := hperm.mem_iff.mp hi
    rcases List.mem_cons.mp this with h' | h'
    · subst h'; exact hn_rc
    · exact h.rc i h'
  · rw [absQ, absQ, hheap, List.map_append]
    congr 1
    · refine List.map_congr_left ?_
      intro i hi
      have hihq : i ∈ σ.head :: qc := List.mem_cons_of_mem _ hi
      have hin : i ≠ n := fun h' => hn_hq (h' ▸ hihq)
      by_cases hit : i = σ.tail
      · subst hit; rw [hset_eq, hdt]
      · rw [hset_ne _ dt hit, hset_ne _ dn hin]
    · simp [hset_ne _ dt htail_ne, hset_eq, hdn]

/-! ## Dequeue computation and preservation -/

/-- On an invariant empty queue, MPMC `try_dequeue` reports empty and
restores the state exactly (the refcnt bump is undone). -/
theorem try_dequeue_empty {σ : QState α} {fc : List Nat} (h : InvW σ [] fc) :
    try_dequeue σ = (none, σ) := by
  have hht : σ.head = σ.tail := by simpa [isChain] using h.chain
  have hb : (σ.heap σ.head).bnext = none := hht ▸ h.tail_bnext
  simp [try_dequeue, h.rc_head, hb, release_ref, hset_eq, hset_hset]
  have key2 : ({ next := (σ.heap σ.head).next, refcnt := 1, bnext := none,
                 elem := (σ.heap σ.head).elem } : Node α) = σ.heap σ.head := by
    rw [← hb, ← h.rc_head]
  rw [key2, hset_self]

/-- On an invariant non-empty queue, MPMC `try_dequeue` delivers the
payload of the head's successor and the state steps to `deqNet`. -/
theorem try_dequeue_cons {σ : QState α} {n : Nat} {qc' fc : List Nat}
    (h : InvW σ (n :: qc') fc) :
    try_dequeue σ = (some ((σ.heap n).elem), deqNet σ n) := by
  have hb : (σ.heap σ.head).bnext = some n := by
    have := h.chain; simp [isChain] at this; exact this.1
  have hne : n ≠ σ.head := by
    intro h'; exact (List.nodup_cons.mp h.nodup_hq).1 (h' ▸ List.mem_cons_self n qc')
  have key : { σ.heap σ.head with refcnt := 1 } = σ.heap σ.head := by rw [← h.rc_head]
  simp [try_dequeue, h.rc_head, hb, release_ref, push, deqNet, hset_eq, hset_hset,
        hset_ne _ _ hne, key, hset_self]

/-- The MPSC `try_dequeue` reaches the same net state. -/
theorem mpsc_try_dequeue_empty {σ : QState α} {fc : List Nat} (h : InvW σ [] fc) :
    mpsc_try_dequeue σ = (none, σ) := by
  have hht : σ.head = σ.tail := by simpa [isChain] using h.chain
  have hb : (σ.heap σ.head).bnext = none := hht ▸ h.tail_bnext
  simp [mpsc_try_dequeue, hb]

theorem mpsc_try_dequeue_cons {σ : QState α} {n : Nat} {qc' fc : List Nat}
    (h : InvW σ (n :: qc') fc) :
    mpsc_try_dequeue σ = (some ((σ.heap n).elem), deqNet σ n) := by
  have hb : (σ.heap σ.head).bnext = some n := by
    have := h.chain; simp [isChain] at this; exact this.1
  simp [mpsc_try_dequeue, hb, push, release_ref, h.rc_head, deqNet, hset_eq, hset_hset]

/-- Dequeuing preserves the invariant: the successor becomes the new
dummy head and the old head joins the pool at the top. -/
theorem InvW_deqNet {σ : QState α} {n : Nat} {qc' fc : List Nat}
    (h : InvW σ (n :: qc') fc) :
    InvW (deqNet σ n) qc' (σ.head :: fc) ∧ absQ (deqNet σ n) qc' = absQ σ qc' := by
  have hchain : (σ.heap σ.head).bnext = some n ∧ isChain σ.heap n qc' σ.tail = true := by
    have := h.chain; simp [isChain] at this; exact this
  have hh_nq : σ.head ∉ n :: qc' := (List.nodup_cons.mp h.nodup_hq).1
  have hh_fc : σ.head ∉ fc := h.disj σ.head (List.mem_cons_self _ _)
  have htail_mem : σ.tail ∈ n :: qc' := isChain_mem_last n qc' σ.tail hchain.2
  have htail_ne : σ.tail ≠ σ.head := fun h' => hh_nq (h' ▸ htail_mem)
  set dh : Node α := { σ.heap σ.head with next := σ.top, refcnt := 1 } with hdh
  have hperm : (n :: qc' ++ (σ.head :: fc)).Perm (σ.head :: (n :: qc') ++ fc) := by
    rw [List.cons_append, List.cons_append]
    have hs1 : (qc' ++ σ.head :: fc).Perm (σ.head :: (qc' ++ fc)) := List.perm_middle
    exact (hs1.cons n).trans (List.Perm.swap σ.head n _)
  refine ⟨⟨?_, ?_, ?_, ?_, ?_, ?_⟩, ?_⟩
  · show isChain (hset σ.heap σ.head dh) n qc' σ.tail = true
    rw [isChain_update_notmem n qc' σ.tail hh_nq]
    exact hchain.2
  · show ((hset σ.heap σ.head dh) σ.tail).bnext = none
    rw [hset_ne _ dh htail_ne]
    exact h.tail_bnext
  · show isFChain (hset σ.heap σ.head dh) (some σ.head) (σ.head :: fc) = true
    simp only [isFChain, hset_eq]
    refine (Bool.and_eq_true _ _).mpr ⟨by simp, ?_⟩
    show isFChain (hset σ.heap σ.head dh) σ.top fc = true
    rw [isFChain_update_notmem σ.top fc hh_fc]
    exact h.fchain
  · exact hperm.nodup_iff.mpr h.nodup
  · intro i hi
    exact h.lt_fresh i (hperm.mem_iff.mp hi)
  · intro i hi
    by_cases hih : i = σ.head
    · subst hih
      show ((hset σ.heap σ.head dh) σ.head).refcnt = 1
      rw [hset_eq]
    · show ((hset σ.heap σ.head dh) i).refcnt = 1
      rw [hset_ne _ dh hih]
      exact h.rc i (hperm.mem_iff.mp hi)
  · refine List.map_congr_left ?_
    intro i hi
    have hih : i ≠ σ.head := fun h' => hh_nq (h' ▸ List.mem_cons_of_mem n hi)
    show ((hset σ.heap σ.head dh) i).elem = (σ.heap i).elem
    rw [hset_ne _ dh hih]

/-! ## Node acquisition (pool pop / fresh allocation) -/

/-- An empty pool makes `pop` fail without touching the state. -/
theorem InvW_pop_empty {σ : QState α} {qc : List Nat} (h : InvW σ qc []) :
    σ.top = none ∧ pop σ = (none, σ) := by
  have htop : σ.top = none := by simpa [isFChain] using h.fchain
  exact ⟨htop, pop_none_eq htop⟩

/-- Popping from a non-empty pool hands out its top node, preserves the
invariant, and the node satisfies the freshness facts `_enqueue` needs. -/
theorem InvW_pop_cons {σ : QState α} {qc fc' : List Nat} {m : Nat}
    (h : InvW σ qc (m :: fc')) :
    pop σ = (some m, { σ with top := (σ.heap m).next }) ∧
    InvW { σ with top := (σ.heap m).next } qc fc' ∧
    m ∉ σ.head :: qc ++ fc' ∧ m < σ.fresh ∧ (σ.heap m).refcnt = 1 := by
  have hfc : σ.top = some m ∧ isFChain σ.heap (σ.heap m).next fc' = true := by
    have := h.fchain; simp [isFChain] at this; exact this
  have hm_mem : m ∈ σ.head :: qc ++ (m :: fc') := by
    exact List.mem_cons_of_mem _ (List.mem_append.mpr (Or.inr (List.mem_cons_self _ _)))
  have hrcm : (σ.heap m).refcnt = 1 := h.rc m hm_mem
  have hsub : List.Sublist (σ.head :: qc ++ fc') (σ.head :: qc ++ (m :: fc')) := by
    rw [List.cons_append, List.cons_append]
    exact ((List.sublist_cons_self m fc').append_left qc).cons₂ σ.head
  refine ⟨pop_some_eq hfc.1 hrcm, ⟨?_, ?_, ?_, ?_, ?_, ?_⟩, ?_, ?_, ?_⟩
  · exact h.chain
  · exact h.tail_bnext
  · exact hfc.2
  · exact h.nodup.sublist hsub
  · intro i hi; exact h.lt_fresh i (hsub.mem hi)
  · intro i hi; exact h.rc i (hsub.mem hi)
  · intro hmem
    rcases List.mem_cons.mp hmem with h' | h'
    · subst h'
      exact h.disj σ.head (List.mem_cons_self _ _) (List.mem_cons_self _ _)
    · rcases List.mem_append.mp h' with h'' | h''
      · exact h.disj m (List.mem_cons_of_mem _ h'') (List.mem_cons_self m fc')
      · have hnd : (m :: fc').Nodup :=
          h.nodup.sublist (List.sublist_append_right (σ.head :: qc) (m :: fc'))
        exact (List.nodup_cons.mp hnd).1 h''
  · exact h.lt_fresh m hm_mem
  · exact hrcm

/-- Allocating a fresh block preserves the invariant and yields a node
with the freshness facts `_enqueue` needs. -/
theorem InvW_alloc {σ : QState α} {qc fc : List Nat} (h : InvW σ qc fc) :
    InvW (allocBlock σ).2 qc fc ∧
    (allocBlock σ).1 ∉ σ.head :: qc ++ fc ∧
    (allocBlock σ).1 < (allocBlock σ).2.fresh ∧
    ((allocBlock σ).2.heap (allocBlock σ).1).refcnt = 1 ∧
    absQ (allocBlock σ).2 qc = absQ σ qc := by
  have hfn := h.fresh_notmem
  have hf_hq : σ.fresh ∉ σ.head :: qc := fun hmem => hfn (by
    rcases List.mem_cons.mp hmem with h' | h'
    · exact List.mem_cons.mpr (Or.inl h')
    · exact List.mem_cons.mpr (Or.inr (List.mem_append.mpr (Or.inl h'))))
  have hf_fc : σ.fresh ∉ fc := fun hmem =>
    hfn (List.mem_cons.mpr (Or.inr (List.mem_append.mpr (Or.inr hmem))))
  have htne : σ.tail ≠ σ.fresh := fun h' => hf_hq (h' ▸ h.tail_mem)
  refine ⟨⟨?_, ?_, ?_, ?_, ?_, ?_⟩, hfn, Nat.lt_succ_self _,
    by simp [allocBlock, hset_eq, newBlock], ?_⟩
  · show isChain (hset σ.heap σ.fresh newBlock) σ.head qc σ.tail = true
    rw [isChain_update_notmem σ.head qc σ.tail hf_hq]
    exact h.chain
  · show ((hset σ.heap σ.fresh newBlock) σ.tail).bnext = none
    rw [hset_ne _ newBlock htne]
    exact h.tail_bnext
  · show isFChain (hset σ.heap σ.fresh newBlock) σ.top fc = true
    rw [isFChain_update_notmem σ.top fc hf_fc]
    exact h.fchain
  · exact h.nodup
  · intro i hi
    exact Nat.lt_succ_of_lt (h.lt_fresh i hi)
  · intro i hi
    have hine : i ≠ σ.fresh := fun h' => hfn (h' ▸ hi)
    show ((hset σ.heap σ.fresh newBlock) i).refcnt = 1
    rw [hset_ne _ newBlock hine]
    exact h.rc i hi
  · refine List.map_congr_left ?_
    intro i hi
    have hine : i ≠ σ.fresh := fun h' =>
      hf_hq (h' ▸ List.mem_cons_of_mem σ.head hi)
    show ((hset σ.heap σ.fresh newBlock) i).elem = (σ.heap i).elem
    rw [hset_ne _ newBlock hine]

/-! ## Rolled-up enqueue lemmas -/

theorem enqueue_eq_alloc {σ : QState α} {qc : List Nat} (h : InvW σ qc []) (e : α) :
    enqueue σ e = (true, _enqueue (allocBlock σ).2 (allocBlock σ).1 e) := by
  simp [enqueue, (InvW_pop_empty h).2, allocBlock]

theorem enqueue_eq_pool {σ : QState α} {qc fc' : List Nat} {m : Nat}
    (h : InvW σ qc (m :: fc')) (e : α) :
    enqueue σ e = (true, _enqueue { σ with top := (σ.heap m).next } m e) := by
  simp [enqueue, (InvW_pop_cons h).1]

theorem try_enqueue_eq_empty {σ : QState α} {qc : List Nat} (h : InvW σ qc []) (e : α) :
    try_enqueue σ e = (false, σ) := by
  simp [try_enqueue, (InvW_pop_empty h).2]

theorem try_enqueue_eq_pool {σ : QState α} {qc fc' : List Nat} {m : Nat}
    (h : InvW σ qc (m :: fc')) (e : α) :
    try_enqueue σ e = (true, _enqueue { σ with top := (σ.heap m).next } m e) := by
  simp [try_enqueue, (InvW_pop_cons h).1]

/-- `enqueue` always succeeds, preserves the invariant, and appends the
value to the queue's abstraction. -/
theorem InvW_enqueue {σ : QState α} {qc fc : List Nat} (h : InvW σ qc fc) (e : α) :
    ∃ n fc', (enqueue σ e).1 = true ∧ InvW (enqueue σ e).2 (qc ++ [n]) fc' ∧
      absQ (enqueue σ e).2 (qc ++ [n]) = absQ σ qc ++ [e] := by
  cases fc with
  | nil =>
    obtain ⟨hinv, hmem, hlt, hrc, habs⟩ := InvW_alloc h
    obtain ⟨hinv', habs'⟩ := InvW_enqueue_core hinv hmem hlt hrc e
    refine ⟨(allocBlock σ).1, [], ?_, ?_, ?_⟩
    · rw [enqueue_eq_alloc h e]
    · rw [enqueue_eq_alloc h e]; exact hinv'
    · rw [enqueue_eq_alloc h e]; rw [habs', habs]
  | cons m fc' =>
    obtain ⟨hpop, hinv, hmem, hlt, hrc⟩ := InvW_pop_cons h
    obtain ⟨hinv', habs'⟩ := InvW_enqueue_core hinv hmem hlt hrc e
    refine ⟨m, fc', ?_, ?_, ?_⟩
    · rw [enqueue_eq_pool h e]
    · rw [enqueue_eq_pool h e]; exact hinv'
    · rw [enqueue_eq_pool h e]; exact habs'

theorem InvW_enqList {σ : QState α} {qc fc : List Nat} (h : InvW σ qc fc)
    (xs : List α) :
    ∃ qc' fc', InvW (enqList σ xs) qc' fc' ∧
      absQ (enqList σ xs) qc' = absQ σ qc ++ xs := by
  induction xs generalizing σ qc fc with
  | nil => exact ⟨qc, fc, h, by simp [enqList]⟩
  | cons x xs ih =>
    obtain ⟨n, fc', _, hinv, habs⟩ := InvW_enqueue h x
    obtain ⟨qc'', fc'', hinv', habs'⟩ := ih hinv
    refine ⟨qc'', fc'', hinv', ?_⟩
    rw [show enqList σ (x :: xs) = enqList (enqueue σ x).2 xs from rfl] at *
    rw [habs', habs]
    simp

/-! ## Pool pre-population and the constructor -/

theorem pushNew_eq (σ : QState α) :
    pushNew σ = { σ with top := some σ.fresh, fresh := σ.fresh + 1,
                         heap := hset σ.heap σ.fresh ⟨σ.top, 1, none, default⟩ } := by
  simp [pushNew, allocBlock, push, release_ref, hset_eq, hset_hset, newBlock]

theorem InvW_pushNew {σ : QState α} {qc fc : List Nat} (h : InvW σ qc fc) :
    InvW (pushNew σ) qc (σ.fresh :: fc) := by
  have hfn := h.fresh_notmem
  have hf_hq : σ.fresh ∉ σ.head :: qc := fun hmem => hfn (by
    rcases List.mem_cons.mp hmem with h' | h'
    · exact List.mem_cons.mpr (Or.inl h')
    · exact List.mem_cons.mpr (Or.inr (List.mem_append.mpr (Or.inl h'))))
  have hf_fc : σ.fresh ∉ fc := fun hmem =>
    hfn (List.mem_cons.mpr (Or.inr (List.mem_append.mpr (Or.inr hmem))))
  have htne : σ.tail ≠ σ.fresh := fun h' => hf_hq (h' ▸ h.tail_mem)
  have hperm : (σ.head :: qc ++ (σ.fresh :: fc)).Perm (σ.fresh :: (σ.head :: qc ++ fc)) := by
    rw [List.cons_append, List.cons_append]
    have hs1 : (qc ++ σ.fresh :: fc).Perm (σ.fresh :: (qc ++ fc)) := List.perm_middle
    exact (hs1.cons σ.head).trans (List.Perm.swap σ.fresh σ.head _)
  rw [pushNew_eq]
  refine ⟨?_, ?_, ?_, ?_, ?_, ?_⟩
  · show isChain (hset σ.heap σ.fresh _) σ.head qc σ.tail = true
    rw [isChain_update_notmem σ.head qc σ.tail hf_hq]
    exact h.chain
  · show ((hset σ.heap σ.fresh _) σ.tail).bnext = none
    rw [hset_ne _ _ htne]
    exact h.tail_bnext
  · show isFChain (hset σ.heap σ.fresh _) (some σ.fresh) (σ.fresh :: fc) = true
    simp only [isFChain, hset_eq]
    refine (Bool.and_eq_true _ _).mpr ⟨by simp, ?_⟩
    show isFChain (hset σ.heap σ.fresh _) σ.top fc = true
    rw [isFChain_update_notmem σ.top fc hf_fc]
    exact h.fchain
  · exact hperm.nodup_iff.mpr (List.nodup_cons.mpr ⟨hfn, h.nodup⟩)
  · intro i hi
    rcases List.mem_cons.mp (hperm.mem_iff.mp hi) with h' | h'
    · subst h'; exact Nat.lt_succ_self _
    · exact Nat.lt_succ_of_lt (h.lt_fresh i h')
  · intro i hi
    rcases List.mem_cons.mp (hperm.mem_iff.mp hi) with h' | h'
    · subst h'
      show ((hset σ.heap σ.fresh ⟨σ.top, 1, none, default⟩) σ.fresh).refcnt = 1
      rw [hset_eq]
    · have hine : i ≠ σ.fresh := fun h'' => hfn (h'' ▸ h')
      show ((hset σ.heap σ.fresh _) i).refcnt = 1
      rw [hset_ne _ _ hine]
      exact h.rc i h'

theorem InvW_pushPool {σ : QState α} {qc fc : List Nat} (h : InvW σ qc fc) :
    ∀ c, ∃ fc', InvW (pushPool σ c) qc fc' := by
  intro c
  induction c generalizing σ fc with
  | zero => exact ⟨fc, h⟩
  | succ c ih => exact ih (InvW_pushNew h)

/-- A freshly constructed queue of any capacity satisfies the invariant
with an empty queue chain. -/
theorem InvW_mkQ (cap : Nat) : ∃ fc, InvW (mkQ cap : QState α) [] fc := by
  have h0 : InvW ({ heap := hset (fun _ => unalloc) 0 newBlock, top := none,
                    head := 0, tail := 0, fresh := 1 } : QState α) [] [] := by
    refine ⟨?_, ?_, ?_, ?_, ?_, ?_⟩ <;> simp [isChain, isFChain, hset_eq, newBlock]
  exact InvW_pushPool h0 cap

/-! ## Draining the queue -/

theorem deqList_succ (σ : QState α) (k : Nat) :
    (deqList σ (k + 1)).1 = (try_dequeue σ).1 :: (deqList (try_dequeue σ).2 k).1 := by
  simp [deqList]

theorem mpscDeqList_succ (σ : QState α) (k : Nat) :
    (mpscDeqList σ (k + 1)).1 =
      (mpsc_try_dequeue σ).1 :: (mpscDeqList (mpsc_try_dequeue σ).2 k).1 := by
  simp [mpscDeqList]

theorem deqList_spec {σ : QState α} {qc fc : List Nat} (h : InvW σ qc fc) :
    (deqList σ (qc.length + 1)).1 = (absQ σ qc).map some ++ [none] := by
  induction qc generalizing σ fc with
  | nil => simp [deqList, try_dequeue_empty h, absQ]
  | cons n qc' ih =>
    obtain ⟨hinv, habs⟩ := InvW_deqNet h
    have h1 : (n :: qc').length + 1 = (qc'.length + 1) + 1 := by simp
    rw [h1, deqList_succ, try_dequeue_cons h]
    show some ((σ.heap n).elem) :: (deqList (deqNet σ n) (qc'.length + 1)).1 = _
    rw [ih hinv, habs]
    simp [absQ]

theorem mpscDeqList_spec {σ : QState α} {qc fc : List Nat} (h : InvW σ qc fc) :
    (mpscDeqList σ (qc.length + 1)).1 = (absQ σ qc).map some ++ [none] := by
  induction qc generalizing σ fc with
  | nil => simp [mpscDeqList, mpsc_try_dequeue_empty h, absQ]
  | cons n qc' ih =>
    obtain ⟨hinv, habs⟩ := InvW_deqNet h
    have h1 : (n :: qc').length + 1 = (qc'.length + 1) + 1 := by simp
    rw [h1, mpscDeqList_succ, mpsc_try_dequeue_cons h]
    show some ((σ.heap n).elem) :: (mpscDeqList (deqNet σ n) (qc'.length + 1)).1 = _
    rw [ih hinv, habs]
    simp [absQ]

/-! ## Rewind (MPSC push-back) -/

/-- Once the new block is in hand, `rewind` reaches `rewNet`: the pool
case. -/
theorem rewind_eq_pool {σ : QState α} {qc fc' : List Nat} {m : Nat}
    (h : InvW σ qc (m :: fc')) (e : α) :
    rewind σ e = rewNet { σ with top := (σ.heap m).next } m e := by
  obtain ⟨hpop, _, hmem, _, _⟩ := InvW_pop_cons h
  have hne : m ≠ σ.head := fun h' => hmem (h' ▸ List.mem_cons_self σ.head (qc ++ fc'))
  simp [rewind, hpop, rewNet, hset_ne _ _ hne]

/-- Once the new block is in hand, `rewind` reaches `rewNet`: the
allocation case. -/
theorem rewind_eq_alloc {σ : QState α} {qc : List Nat} (h : InvW σ qc []) (e : α) :
    rewind σ e = rewNet (allocBlock σ).2 (allocBlock σ).1 e := by
  have hfn := h.fresh_notmem
  have hne : σ.fresh ≠ σ.head := fun h' =>
    hfn (by rw [h']; exact List.mem_cons_self σ.head _)
  simp [rewind, (InvW_pop_empty h).2, allocBlock, rewNet, hset_ne _ _ hne]

/-- `rewNet` of a fresh node prepends the rewound value to the queue's
abstraction: the old head becomes a live node carrying `e` and the new
block is the new dummy head. -/
theorem InvW_rewind_core {σ : QState α} {qc fc : List Nat} {n : Nat}
    (h : InvW σ qc fc) (hn_mem : n ∉ σ.head :: qc ++ fc) (hn_lt : n < σ.fresh)
    (hn_rc : (σ.heap n).refcnt = 1) (e : α) :
    InvW (rewNet σ n e) (σ.head :: qc) fc ∧
    absQ (rewNet σ n e) (σ.head :: qc) = e :: absQ σ qc := by
  have hn_hq : n ∉ σ.head :: qc := fun hmem => hn_mem (by
    rcases List.mem_cons.mp hmem with h' | h'
    · exact List.mem_cons.mpr (Or.inl h')
    · exact List.mem_cons.mpr (Or.inr (List.mem_append.mpr (Or.inl h'))))
  have hn_ne_head : n ≠ σ.head := fun h' => hn_hq (h' ▸ List.mem_cons_self _ _)
  have htail_ne_n : σ.tail ≠ n := fun h' => hn_hq (h' ▸ h.tail_mem)
  set de : Node α := { σ.heap σ.head with elem := e } with hde
  set dbn : Node α := { σ.heap n with bnext := some σ.head } with hdbn
  have hb_pres : ∀ x, ((hset σ.heap σ.head de) x).bnext = (σ.heap x).bnext := by
    intro x
    by_cases hx : x = σ.head
    · subst hx; rw [hset_eq]
    · rw [hset_ne _ de hx]
  have hnext_pres : ∀ x,
      ((hset (hset σ.heap σ.head de) n dbn) x).next = (σ.heap x).next := by
    intro x
    by_cases hx : x = n
    · subst hx; rw [hset_eq]
    · rw [hset_ne _ dbn hx]
      by_cases hx' : x = σ.head
      · subst hx'; rw [hset_eq]
      · rw [hset_ne _ de hx']
  have hrc_pres : ∀ x,
      ((hset (hset σ.heap σ.head de) n dbn) x).refcnt = (σ.heap x).refcnt := by
    intro x
    by_cases hx : x = n
    · subst hx; rw [hset_eq]
    · rw [hset_ne _ dbn hx]
      by_cases hx' : x = σ.head
      · subst hx'; rw [hset_eq]
      · rw [hset_ne _ de hx']
  refine ⟨⟨?_, ?_, ?_, ?_, ?_, ?_⟩, ?_⟩
  · show isChain (hset (hset σ.heap σ.head de) n dbn) n (σ.head :: qc) σ.tail = true
    simp only [isChain, hset_eq]
    refine (Bool.and_eq_true _ _).mpr ⟨by simp [hdbn], ?_⟩
    rw [isChain_update_notmem σ.head qc σ.tail hn_hq,
        isChain_congr hb_pres σ.head qc σ.tail]
    exact h.chain
  · show ((hset (hset σ.heap σ.head de) n dbn) σ.tail).bnext = none
    rw [hset_ne _ dbn htail_ne_n, hb_pres σ.tail]
    · exact h.tail_bnext
  · show isFChain (hset (hset σ.heap σ.head de) n dbn) σ.top fc = true
    rw [isFChain_congr hnext_pres σ.top fc]
    exact h.fchain
  · show (n :: (σ.head :: qc) ++ fc).Nodup
    rw [List.cons_append]
    exact List.nodup_cons.mpr ⟨hn_mem, h.nodup⟩
  · intro i hi
    rw [List.cons_append] at hi
    rcases List.mem_cons.mp hi with h' | h'
    · subst h'; exact hn_lt
    · exact h.lt_fresh i h'
  · intro i hi
    have hi' : i ∈ n :: (σ.head :: qc ++ fc) := hi
    show ((hset (hset σ.heap σ.head de) n dbn) i).refcnt = 1
    rw [hrc_pres i]
    rcases List.mem_cons.mp hi' with h' | h'
    · subst h'; exact hn_rc
    · exact h.rc i h'
  · show ((σ.head :: qc).map fun i => ((hset (hset σ.heap σ.head de) n dbn) i).elem)
      = e :: absQ σ qc
    rw [List.map_cons]
    congr 1
    · rw [hset_ne _ dbn hn_ne_head.symm, hset_eq]
    · refine List.map_congr_left ?_
      intro i hi
      have hin : i ≠ n := fun h' => hn_hq (h' ▸ List.mem_cons_of_mem σ.head hi)
      have hih : i ≠ σ.head := fun h' =>
        (List.nodup_cons.mp h.nodup_hq).1 (h' ▸ hi)
      rw [hset_ne _ dbn hin, hset_ne _ de hih]

/-- `rewind` on any invariant state prepends its value to the queue. -/
theorem InvW_rewind {σ : QState α} {qc fc : List Nat} (h : InvW σ qc fc) (e : α) :
    ∃ fc', InvW (rewind σ e) (σ.head :: qc) fc' ∧
      absQ (rewind σ e) (σ.head :: qc) = e :: absQ σ qc := by
  cases fc with
  | nil =>
    obtain ⟨hinv, hmem, hlt, hrc, habs⟩ := InvW_alloc h
    obtain ⟨hinv', habs'⟩ := InvW_rewind_core hinv hmem hlt hrc e
    rw [rewind_eq_alloc h e]
    refine ⟨[], hinv', ?_⟩
    show absQ (rewNet (allocBlock σ).2 (allocBlock σ).1 e) ((allocBlock σ).2.head :: qc)
        = e :: absQ σ qc
    rw [habs']
    show e :: absQ (allocBlock σ).2 qc = e :: absQ σ qc
    rw [habs]
  | cons m fc' =>
    obtain ⟨hpop, hinv, hmem, hlt, hrc⟩ := InvW_pop_cons h
    obtain ⟨hinv', habs'⟩ := InvW_rewind_core hinv hmem hlt hrc e
    rw [rewind_eq_pool h e]
    exact ⟨fc', hinv', habs'⟩

/-! ## Auxiliary pointwise-preservation lemma -/

theorem hset_pres_next {hp : Nat → Node α} {j : Nat} {d : Node α}
    (hd : d.next = (hp j).next) (i : Nat) : ((hset hp j d) i).next = (hp i).next := by
  by_cases hij : i = j
  · subst hij; rw [hset_eq, hd]
  · rw [hset_ne _ _ hij]

/-! ## Claim theorems -/

/-- C1: single-threaded FIFO.  For every capacity and every sequence of
values enqueued by a single thread into a fresh MPMC queue, successive
`try_dequeue` calls return exactly those values in enqueue order, and
the next `try_dequeue` after the last returns false (`none`). -/
theorem mpmc_fifo_single_thread (cap : Nat) (xs : List α) :
    (deqList (enqList (mkQ cap) xs) (xs.length + 1)).1 = xs.map some ++ [none] := by
  obtain ⟨fc, h⟩ := InvW_mkQ (α := α) cap
  obtain ⟨qc', fc', hinv, habs⟩ := InvW_enqList h xs
  have habs' : absQ (enqList (mkQ cap) xs) qc' = xs := by simpa [absQ] using habs
  have hlen : qc'.length = xs.length := by
    have := congrArg List.length habs'
    simpa [absQ] using this
  rw [← hlen, deqList_spec hinv, habs']

/-- C2: round-trip.  On a quiescent empty queue, `enqueue v` followed by
`try_dequeue` succeeds and yields exactly `v`. -/
theorem enqueue_dequeue_roundtrip {σ : QState α} {fc : List Nat}
    (h : InvW σ [] fc) (v : α) :
    (try_dequeue (enqueue σ v).2).1 = some v := by
  obtain ⟨n, fc', _, hinv, habs⟩ := InvW_enqueue h v
  have hinv' : InvW (enqueue σ v).2 [n] fc' := by simpa using hinv
  have helem : ((enqueue σ v).2.heap n).elem = v := by simpa [absQ] using habs
  rw [try_dequeue_cons hinv', helem]

/-- C3 counterexample: the claim says the queue link and the free-list
link are one shared atomic field.  In the source, `MPMCQueue::Block`
declares its own `std::atomic<Block *> next` which shadows the
inherited `FreeList::Node::next`, so a node has two independent link
fields.  Concretely: enqueue 10, 20 into a capacity-0 queue and dequeue
once; the old dummy (node 0) now sits on the free list with free-list
link `none` while its queue link still reads `some 1` — the two
successors differ at the same instant, refuting the single-field claim. -/
theorem node_two_next_fields_counterexample :
    ((try_dequeue (enqList (mkQ 0 : QState Nat) [10, 20])).2.heap 0).next = none ∧
    ((try_dequeue (enqList (mkQ 0 : QState Nat) [10, 20])).2.heap 0).bnext = some 1 ∧
    (try_dequeue (enqList (mkQ 0 : QState Nat) [10, 20])).2.top = some 0 ∧
    ((try_dequeue (enqList (mkQ 0 : QState Nat) [10, 20])).2.heap 0).next ≠
      ((try_dequeue (enqList (mkQ 0 : QState Nat) [10, 20])).2.heap 0).bnext := by
  decide

/-- C3 amended: each node has two distinct next fields — `Block::next`
(the queue link, written by `_enqueue`) shadows `FreeList::Node::next`
(the free-list link, written by `release_ref`) — and the two roles
never interfere: `release_ref` leaves every queue link unchanged and
`_enqueue` leaves every free-list link unchanged. -/
theorem node_next_fields_independent (σ : QState α) (u n i : Nat) (e : α) :
    ((release_ref σ u).heap i).bnext = (σ.heap i).bnext ∧
    ((_enqueue σ n e).heap i).next = (σ.heap i).next := by
  constructor
  · by_cases h1 : (σ.heap u).refcnt = 1
    · rw [release_ref_one h1]
      by_cases hiu : i = u
      · subst hiu
        show ((hset σ.heap i _) i).bnext = _
        rw [hset_eq]
      · show ((hset σ.heap u _) i).bnext = _
        rw [hset_ne _ _ hiu]
    · rw [release_ref_ne_one h1]
      by_cases hiu : i = u
      · subst hiu
        show ((hset σ.heap i _) i).bnext = _
        rw [hset_eq]
      · show ((hset σ.heap u _) i).bnext = _
        rw [hset_ne _ _ hiu]
  · simp only [_enqueue]
    set d1 : Node α := { σ.heap n with elem := e } with hd1
    set d2 : Node α := { (hset σ.heap n d1) n with bnext := none } with hd2
    set d3 : Node α :=
      { (hset (hset σ.heap n d1) n d2) σ.tail with bnext := some n } with hd3
    exact (@hset_pres_next α _ (hset (hset σ.heap n d1) n d2) σ.tail d3 rfl i).trans
      ((@hset_pres_next α _ (hset σ.heap n d1) n d2 rfl i).trans
        (@hset_pres_next α _ σ.heap n d1 rfl i))

/-- C4: MPSC rewind law.  On a quiescent non-empty queue, a successful
`try_dequeue` yields the front value `x`; after `rewind v`, subsequent
dequeues yield `v`, then all values enqueued before the rewind but not
yet dequeued in their original order, then false.  Taking `v := x`
gives the literal `try_dequeue; rewind(x); try_dequeue = x` law. -/
theorem mpsc_rewind_law {σ : QState α} {qc fc : List Nat} {x : α} {xs : List α}
    (h : InvW σ qc fc) (habs : absQ σ qc = x :: xs) (v : α) :
    (mpsc_try_dequeue σ).1 = some x ∧
    (mpscDeqList (rewind (mpsc_try_dequeue σ).2 v) (xs.length + 2)).1
      = some v :: xs.map some ++ [none] := by
  cases qc with
  | nil => simp [absQ] at habs
  | cons n qc' =>
    have helem : (σ.heap n).elem = x := by
      have := habs; simp [absQ] at this; exact this.1
    have habs2 : absQ σ qc' = xs := by
      have := habs; simp [absQ] at this
      show List.map _ qc' = xs
      exact this.2
    obtain ⟨hinv, habsd⟩ := InvW_deqNet h
    obtain ⟨fc', hinv', habsr⟩ := InvW_rewind hinv v
    have hlen : qc'.length = xs.length := by
      have := congrArg List.length habs2
      simpa [absQ] using this
    rw [mpsc_try_dequeue_cons h]
    refine ⟨by rw [helem], ?_⟩
    show (mpscDeqList (rewind (deqNet σ n) v) (xs.length + 2)).1 = _
    have hqlen : (((deqNet σ n).head :: qc').length + 1) = xs.length + 2 := by
      simp [hlen]
    have := mpscDeqList_spec hinv'
    rw [hqlen] at this
    rw [this, habsr, habsd, habs2]
    simp

/-- C5: emptiness.  Under the invariant, MPMC `try_dequeue` reports
empty exactly when `head->next` is null; in particular a freshly
constructed queue of any capacity reports empty. -/
theorem try_dequeue_none_iff_empty {σ : QState α} {qc fc : List Nat}
    (h : InvW σ qc fc) :
    ((try_dequeue σ).1 = none ↔ (σ.heap σ.head).bnext = none) ∧
    ∀ cap : Nat, (try_dequeue (mkQ cap : QState α)).1 = none := by
  constructor
  · cases qc with
    | nil =>
      have hht : σ.head = σ.tail := by simpa [isChain] using h.chain
      have hb : (σ.heap σ.head).bnext = none := hht ▸ h.tail_bnext
      simp [try_dequeue_empty h, hb]
    | cons n qc' =>
      have hb : (σ.heap σ.head).bnext = some n := by
        have := h.chain; simp [isChain] at this; exact this.1
      simp [try_dequeue_cons h, hb]
  · intro cap
    obtain ⟨fc0, h0⟩ := InvW_mkQ (α := α) cap
    rw [try_dequeue_empty h0]

/-- C6: pool exhaustion.  Under the invariant, `try_enqueue` fails
exactly when the pool is empty (`top == nullptr`), failing leaves the
state untouched, and `enqueue` always succeeds (allocating on miss). -/
theorem try_enqueue_false_iff_pool_empty {σ : QState α} {qc fc : List Nat}
    (h : InvW σ qc fc) (e : α) :
    ((try_enqueue σ e).1 = false ↔ σ.top = none) ∧
    ((try_enqueue σ e).1 = false → (try_enqueue σ e).2 = σ) ∧
    (enqueue σ e).1 = true := by
  cases fc with
  | nil =>
    have htop := (InvW_pop_empty h).1
    rw [try_enqueue_eq_empty h e]
    refine ⟨by simp [htop], by simp, ?_⟩
    rw [enqueue_eq_alloc h e]
  | cons m fc' =>
    have htop : σ.top = some m := by
      have := h.fchain; simp [isFChain] at this; exact this.1
    rw [try_enqueue_eq_pool h e]
    refine ⟨by simp [htop], by simp, ?_⟩
    rw [enqueue_eq_pool h e]

/-- C7: `release_ref` decrements the refcnt; exactly when the prior
value was 1 it pushes the node — the node lands at `top` with its
free-list link pointing at the previous top and its refcnt reset to 1,
all other nodes untouched — and when the prior value was not 1 the only
change is the decremented refcnt. -/
theorem release_ref_spec (σ : QState α) (u : Nat) :
    ((σ.heap u).refcnt = 1 →
      (release_ref σ u).top = some u ∧
      ((release_ref σ u).heap u).refcnt = 1 ∧
      ((release_ref σ u).heap u).next = σ.top ∧
      (∀ i, i ≠ u → (release_ref σ u).heap i = σ.heap i) ∧
      (release_ref σ u).head = σ.head ∧ (release_ref σ u).tail = σ.tail ∧
      (release_ref σ u).fresh = σ.fresh) ∧
    ((σ.heap u).refcnt ≠ 1 →
      release_ref σ u =
        { σ with heap := hset σ.heap u
                           { σ.heap u with refcnt := (σ.heap u).refcnt - 1 } }) := by
  constructor
  · intro h1
    rw [release_ref_one h1]
    refine ⟨rfl, ?_, ?_, ?_, rfl, rfl, rfl⟩
    · show ((hset σ.heap u _) u).refcnt = 1
      rw [hset_eq]
    · show ((hset σ.heap u _) u).next = σ.top
      rw [hset_eq]
    · intro i hi
      show (hset σ.heap u _) i = σ.heap i
      rw [hset_ne _ _ hi]
  · intro h1
    exact release_ref_ne_one h1

/-- C8: no zero-refcount increase.  The refcount-acquire CAS attempt
shared by `FreeList::pop` and `MPMCQueue::try_dequeue`, evaluated
against an arbitrary current state, never increments a node whose
refcnt is 0: whatever stale value `t` was read earlier, the attempt
fails and changes nothing (the guard rejects `t = 0`, and for `t ≠ 0`
the CAS comparison `0 = t` fails). -/
theorem refcnt_acquire_no_zero_increase (σ : QState α) (u t : Nat)
    (h : (σ.heap u).refcnt = 0) :
    refcnt_acquire σ u t = (false, σ) := by
  by_cases ht : t = 0
  · simp [refcnt_acquire, ht]
  · simp [refcnt_acquire, ht, h, Ne.symm ht]

/-- C10: failure atomicity of MPMC `try_dequeue`.  Whenever it returns
false, the state after the call is exactly the state before it: the
refcnt bump on the head is undone by `release_ref`, which (the refcnt
then being at least 2) does not push. -/
theorem try_dequeue_false_state_unchanged (σ : QState α)
    (h : (try_dequeue σ).1 = none) : (try_dequeue σ).2 = σ := by
  by_cases h0 : (σ.heap σ.head).refcnt = 0
  · simp [try_dequeue, h0]
  · rcases hb : (σ.heap σ.head).bnext with _ | nh
    · simp [try_dequeue, h0, hb, release_ref, hset_eq, hset_hset,
        Nat.add_sub_cancel, node_update_rc_self, hset_self]
      have key2 : ({ next := (σ.heap σ.head).next, refcnt := (σ.heap σ.head).refcnt,
                     bnext := none, elem := (σ.heap σ.head).elem } : Node α)
          = σ.heap σ.head := by
        rw [← hb]
      rw [key2, hset_self]
    · simp [try_dequeue, h0, hb, hset_eq] at h

/-! ## Concrete witnesses -/

/-- Witness for C2: round-trip of 42 through a fresh capacity-0 queue. -/
theorem enqueue_dequeue_roundtrip_witness :
    (try_dequeue (enqueue (mkQ 0 : QState Nat) 42).2).1 = some 42 :=
  @enqueue_dequeue_roundtrip Nat _ (mkQ 0) [] (by decide) 42

/-- Witness for C4: enqueue 10,20,30; dequeue yields 10; rewind 99;
draining yields 99, 20, 30 and then false. -/
theorem mpsc_rewind_law_witness :
    (mpsc_try_dequeue (enqList (mkQ 0 : QState Nat) [10, 20, 30])).1 = some 10 ∧
    (mpscDeqList (rewind
        (mpsc_try_dequeue (enqList (mkQ 0 : QState Nat) [10, 20, 30])).2 99)
        ([20, 30].length + 2)).1 = some 99 :: [20, 30].map some ++ [none] :=
  @mpsc_rewind_law Nat _ (enqList (mkQ 0) [10, 20, 30]) [1, 2, 3] [] 10 [20, 30]
    (by decide) (by decide) 99

/-- Witness for C5 at a fresh capacity-0 queue, with the universally
quantified part instantiated at capacity 5. -/
theorem try_dequeue_none_iff_empty_witness :
    ((try_dequeue (mkQ 0 : QState Nat)).1 = none ↔
      ((mkQ 0 : QState Nat).heap (mkQ 0 : QState Nat).head).bnext = none) ∧
    (try_dequeue (mkQ 5 : QState Nat)).1 = none :=
  ⟨(@try_dequeue_none_iff_empty Nat _ (mkQ 0) [] [] (by decide)).1,
   (@try_dequeue_none_iff_empty Nat _ (mkQ 0) [] [] (by decide)).2 5⟩

/-- Witness for C6 at a fresh capacity-0 queue (exhausted pool). -/
theorem try_enqueue_false_iff_pool_empty_witness :
    ((try_enqueue (mkQ 0 : QState Nat) 7).1 = false ↔ (mkQ 0 : QState Nat).top = none) ∧
    ((try_enqueue (mkQ 0 : QState Nat) 7).1 = false →
      (try_enqueue (mkQ 0 : QState Nat) 7).2 = mkQ 0) ∧
    (enqueue (mkQ 0 : QState Nat) 7).1 = true :=
  @try_enqueue_false_iff_pool_empty Nat _ (mkQ 0) [] [] (by decide) 7

/-- Witness for C7: releasing the last reference of the dummy node of a
capacity-1 queue pushes it onto the pool. -/
theorem release_ref_spec_witness :
    (release_ref (mkQ 1 : QState Nat) 0).top = some 0 ∧
    ((release_ref (mkQ 1 : QState Nat) 0).heap 0).refcnt = 1 ∧
    ((release_ref (mkQ 1 : QState Nat) 0).heap 0).next = (mkQ 1 : QState Nat).top :=
  ⟨((release_ref_spec (mkQ 1 : QState Nat) 0).1 (by decide)).1,
   ((release_ref_spec (mkQ 1 : QState Nat) 0).1 (by decide)).2.1,
   ((release_ref_spec (mkQ 1 : QState Nat) 0).1 (by decide)).2.2.1⟩

/-- Witness for C8: a zero-refcnt node (address 7 holds the unallocated
junk, whose refcnt is 0) is never incremented by the acquire CAS, even
for a stale read `t = 3`. -/
theorem refcnt_acquire_no_zero_increase_witness :
    ((mkQ 0 : QState Nat).heap 7).refcnt = 0 ∧
    refcnt_acquire (mkQ 0 : QState Nat) 7 3 = (false, mkQ 0) :=
  ⟨by decide, refcnt_acquire_no_zero_increase (mkQ 0) 7 3 (by decide)⟩

/-- Witness for C10: a failing dequeue on a fresh capacity-2 queue
returns the state unchanged. -/
theorem try_dequeue_false_state_unchanged_witness :
    (try_dequeue (mkQ 2 : QState Nat)).1 = none ∧
    (try_dequeue (mkQ 2 : QState Nat)).2 = mkQ 2 :=
  ⟨by decide, try_dequeue_false_state_unchanged (mkQ 2) (by decide)⟩

end Salticidae
